import Mathlib

/-!
# Verification of `dqn_mountaincar.py`

A shallow embedding in Lean 4 of the DQN training script for the MountainCar
task (`src/dqn_mountaincar.py`) together with proofs of its specified
properties.  Real-valued quantities of the Python program are modelled over
`ℚ`; machine floats are idealized as exact rationals.  The neural network's
tensor internals (owned by the external library) are modelled as explicit
affine maps and rectified linear units over rational vectors.
-/

namespace DQNSpec

/-! ## Hyperparameters (script lines 67–79) -/

/-- `batch_size = 128` (line 70). -/
def batch_size : ℕ := 128

/-- `gamma = 1.` — discount factor (line 72). -/
def gamma : ℚ := 1

/-- `N_RANDOM = 2000.` — steps for eps to decay from 0.95 to 0.05 (line 76). -/
def N_RANDOM : ℚ := 2000

/-- `N_EPISODES = 500` (line 77). -/
def N_EPISODES : ℕ := 500

/-- `N_MIN_TRANSITIONS = batch_size*3` (line 78). -/
def N_MIN_TRANSITIONS : ℕ := batch_size * 3

/-- `MAX_SIZE_BUFFER = batch_size*1000` (line 79). -/
def MAX_SIZE_BUFFER : ℕ := batch_size * 1000

/-! ## Exploration rate (script line 98) -/

/-- `np.clip(x, lo, hi)`: `lo` if `x < lo`, `hi` if `x > hi`, else `x`
(numpy applies the lower bound first, then the upper bound). -/
def npClip (x lo hi : ℚ) : ℚ := min (max x lo) hi

/-- `eps = float(np.clip(1 - i/N_RANDOM, 0.05, .95))` (line 98), as a
function of the global step counter `i`. -/
def eps (i : ℕ) : ℚ := npClip (1 - (i : ℚ) / N_RANDOM) 0.05 0.95

/-! ## Shaped reward (script line 111) -/

/-- `reward = 0 if not done else
(.995**i_ep)*((observation[0] >= .5)*2. + ((observation[0] + 2.2)**2)/(2.7**2))`
(line 111).  `i_ep` is the per-episode step counter and `pos` is the first
component of the post-step observation (the car's final position).  The
numpy boolean `observation[0] >= .5` multiplied by `2.` yields `2.0` or
`0.0`. -/
def shapedReward (d : Bool) (i_ep : ℕ) (pos : ℚ) : ℚ :=
  if !d then 0
  else (0.995 : ℚ) ^ i_ep *
    ((if 0.5 ≤ pos then (2 : ℚ) else 0) + (pos + 2.2) ^ 2 / (2.7 : ℚ) ^ 2)

/-! ## Replay buffer

The `Buffer` class lives in `utils.py`, which is imported by the script
(line 14) but is not part of the sources available here; it is modelled
from the spec. -/

/-- Modelled from the spec: `utils.Buffer.add` is not in the available
sources.  §4.1: "`add(transition)`: appends to the internal sequence; if
length exceeds capacity `C`, removes the oldest entry."  The buffer's
internal sequence is a `List`, oldest entry first. -/
def Buffer.add {α : Type*} (C : ℕ) (buf : List α) (x : α) : List α :=
  let buf' := buf ++ [x]
  if C < buf'.length then buf'.drop 1 else buf'

/-- Folding `Buffer.add` over a sequence of insertions, oldest first. -/
def Buffer.addAll {α : Type*} (C : ℕ) (buf : List α) (xs : List α) : List α :=
  xs.foldl (Buffer.add C) buf

/-- After any sequence of adds onto a buffer within capacity, the contents
are the concatenation with the oldest overflow dropped. -/
theorem Buffer.addAll_eq {α : Type*} (C : ℕ) (xs : List α) :
    ∀ buf : List α, buf.length ≤ C →
      Buffer.addAll C buf xs = (buf ++ xs).drop (buf.length + xs.length - C) := by
  induction xs with
  | nil =>
    intro buf h
    simp only [Buffer.addAll, List.foldl_nil, List.append_nil, List.length_nil, Nat.add_zero]
    rw [Nat.sub_eq_zero_of_le h, List.drop_zero]
  | cons x xs ih =>
    intro buf h
    have hstep : Buffer.addAll C buf (x :: xs) = Buffer.addAll C (Buffer.add C buf x) xs := rfl
    rw [hstep]
    by_cases hc : C < (buf ++ [x]).length
    · have hlen : buf.length = C := by
        simp only [List.length_append, List.length_cons, List.length_nil] at hc
        omega
      have hadd : Buffer.add C buf x = (buf ++ [x]).drop 1 := by
        simp only [Buffer.add, if_pos hc]
      have hdl : ((buf ++ [x]).drop 1).length = C := by
        simp [hlen]
      rw [hadd, ih _ (le_of_eq hdl), hdl]
      have h1 : (1 : ℕ) ≤ (buf ++ [x]).length := by simp
      rw [← List.drop_append_of_le_length h1, List.drop_drop]
      have e1 : (buf ++ [x]) ++ xs = buf ++ x :: xs := by
        rw [List.append_assoc, List.singleton_append]
      have e2 : buf.length + (x :: xs).length - C = xs.length + 1 := by
        simp only [List.length_cons]
        omega
      have e3 : 1 + (C + xs.length - C) = xs.length + 1 := by omega
      rw [e1, e2, e3]
    · have hadd : Buffer.add C buf x = buf ++ [x] := by
        simp only [Buffer.add, if_neg hc]
      have hble : (buf ++ [x]).length ≤ C := by omega
      rw [hadd, ih _ hble]
      have e1 : (buf ++ [x]) ++ xs = buf ++ x :: xs := by
        rw [List.append_assoc, List.singleton_append]
      have e2 : (buf ++ [x]).length + xs.length - C = buf.length + (x :: xs).length - C := by
        simp only [List.length_append, List.length_cons, List.length_nil]
        omega
      rw [e1, e2]

/-- A buffer built from empty holds exactly the most recent `C` insertions. -/
theorem Buffer.addAll_from_empty {α : Type*} (C : ℕ) (xs : List α) :
    Buffer.addAll C [] xs = xs.drop (xs.length - C) := by
  have h := Buffer.addAll_eq C xs [] (Nat.zero_le C)
  simpa using h

/-- C2: for the replay buffer of capacity `MAX_SIZE_BUFFER = batch_size*1000`,
after any sequence of adds starting from the empty buffer the size never
exceeds the capacity, the contents are exactly the most recently added
transitions (all of them while under capacity, the last `MAX_SIZE_BUFFER` of
them once over), and an add to a full buffer evicts exactly the oldest
entry (FIFO). -/
theorem buffer_fifo (xs : List ℕ) :
    (Buffer.addAll MAX_SIZE_BUFFER [] xs).length ≤ MAX_SIZE_BUFFER ∧
    Buffer.addAll MAX_SIZE_BUFFER [] xs = xs.drop (xs.length - MAX_SIZE_BUFFER) ∧
    (∀ buf : List ℕ, ∀ x : ℕ, buf.length = MAX_SIZE_BUFFER →
      Buffer.add MAX_SIZE_BUFFER buf x = buf.tail ++ [x]) := by
  refine ⟨?_, Buffer.addAll_from_empty _ xs, ?_⟩
  · rw [Buffer.addAll_from_empty, List.length_drop]
    omega
  · intro buf x h
    have hc : MAX_SIZE_BUFFER < (buf ++ [x]).length := by simp [h]
    simp only [Buffer.add, if_pos hc]
    have h1 : (1 : ℕ) ≤ buf.length := by
      rw [h]; norm_num [MAX_SIZE_BUFFER, batch_size]
    rw [List.drop_append_of_le_length h1, List.drop_one]

/-- Witness for C2: adding to a concrete full buffer of capacity many zeros
evicts the front element. -/
theorem buffer_fifo_witness :
    Buffer.add MAX_SIZE_BUFFER (List.replicate MAX_SIZE_BUFFER 0) 7 =
      (List.replicate MAX_SIZE_BUFFER 0).tail ++ [7] :=
  (buffer_fifo []).2.2 (List.replicate MAX_SIZE_BUFFER 0) 7 (by simp)

/-! ## Value network (script lines 17–60)

`DQN` is a 3-layer fully-connected network with batch norm: each block is
`FC + BN + ReLU` (lines 26–31, 39–41), and the output is multiplied by
`self.sign` (line 45).  The tensor internals belong to the external
library; they are embedded as explicit rational-vector operations.  A batch
norm layer acts per channel as an affine map `v ↦ scale·v + shift` (in eval
mode `scale = γ/√(σ²+ε)` and `shift = β − γμ/√(σ²+ε)`; in train mode the
same form with per-batch statistics), so it is embedded with free `sc`/`sh`
parameter vectors. -/

/-- `F.relu`: rectified linear unit, `max(0, a)`. -/
def relu (a : ℚ) : ℚ := if a ≤ 0 then 0 else a

/-- Dot product of a weight row with the input vector. -/
def dot (w x : List ℚ) : ℚ := ((w.zip x).map (fun p => p.1 * p.2)).sum

/-- `t.nn.Linear`: rows of `W` dotted with `x`, plus bias. -/
def linear (W : List (List ℚ)) (b : List ℚ) (x : List ℚ) : List ℚ :=
  (W.zip b).map (fun wb => dot wb.1 x + wb.2)

/-- `t.nn.BatchNorm1d` as a per-channel affine map (see section header). -/
def batchNorm (sc sh x : List ℚ) : List ℚ :=
  ((sc.zip sh).zip x).map (fun p => p.1.1 * p.2 + p.1.2)

/-- `F.relu` applied componentwise. -/
def reluVec (x : List ℚ) : List ℚ := x.map relu

/-- The parameters of the `DQN` module: three `Linear` layers (`fc1`–`fc3`),
three batch-norm layers (`bn1`–`bn3`, as affine `sc`/`sh` vectors), and the
output sign (line 32). -/
structure DQNParams where
  W1 : List (List ℚ)
  b1 : List ℚ
  sc1 : List ℚ
  sh1 : List ℚ
  W2 : List (List ℚ)
  b2 : List ℚ
  sc2 : List ℚ
  sh2 : List ℚ
  W3 : List (List ℚ)
  b3 : List ℚ
  sc3 : List ℚ
  sh3 : List ℚ
  sign : ℚ

/-- `DQN.forward` (lines 34–45) on a single state vector: three
`FC + BN + ReLU` blocks, then multiplication by `self.sign`. -/
def DQN.forward (p : DQNParams) (x : List ℚ) : List ℚ :=
  let h1 := reluVec (batchNorm p.sc1 p.sh1 (linear p.W1 p.b1 x))
  let h2 := reluVec (batchNorm p.sc2 p.sh2 (linear p.W2 p.b2 h1))
  let h3 := reluVec (batchNorm p.sc3 p.sh3 (linear p.W3 p.b3 h2))
  h3.map (fun v => p.sign * v)

/-- `DQN.forward` on an N×2 batch: the network applied to each row
(lines 36 and 44 route a 2-d input through the same blocks row-wise). -/
def DQN.forwardBatch (p : DQNParams) (xs : List (List ℚ)) : List (List ℚ) :=
  xs.map (DQN.forward p)

/-- `dqn = DQN(hdim=50, sign=1)` — the sign used by the script (line 67). -/
def scriptSign : ℚ := 1

/-- `def __init__(self, hdim=100, sign=-1)` — the default sign (line 22). -/
def defaultSign : ℚ := -1

theorem relu_nonneg (a : ℚ) : 0 ≤ relu a := by
  unfold relu
  split
  · exact le_rfl
  · rename_i h
    exact le_of_lt (not_le.mp h)

/-- The length of the network output is the (common) length of the
third-layer parameter vectors. -/
theorem forward_length (p : DQNParams)
    (hW : p.W3.length = 3) (hb : p.b3.length = 3)
    (hsc : p.sc3.length = 3) (hsh : p.sh3.length = 3) (x : List ℚ) :
    (DQN.forward p x).length = 3 := by
  simp [DQN.forward, reluVec, batchNorm, linear, List.length_zip, hW, hb, hsc, hsh]

/-! ## Action selection (script lines 47–60)

`t.argmax` over a value vector, as first index attaining the maximum. -/

/-- Scan for the index of the first maximal element: `i` is the index of
the next element of `l` in the original list, `bi`/`bv` the best index and
value so far. -/
def argmaxAux : List ℚ → ℕ → ℕ → ℚ → ℕ
  | [], _, bi, _ => bi
  | x :: xs, i, bi, bv =>
    if bv < x then argmaxAux xs (i + 1) i x else argmaxAux xs (i + 1) bi bv

/-- `t.argmax` of a value vector: index of the first maximal element. -/
def argmaxIdx : List ℚ → ℕ
  | [] => 0
  | x :: xs => argmaxAux xs 1 0 x

theorem argmaxAux_lt (B : ℕ) :
    ∀ (l : List ℚ) (i bi : ℕ) (bv : ℚ), bi < B → i + l.length ≤ B →
      argmaxAux l i bi bv < B := by
  intro l
  induction l with
  | nil => intro i bi bv h _; simpa [argmaxAux] using h
  | cons x xs ih =>
    intro i bi bv hbi hlen
    simp only [List.length_cons] at hlen
    rw [argmaxAux]
    split
    · exact ih (i + 1) i x (by omega) (by omega)
    · exact ih (i + 1) bi bv hbi (by omega)

/-- The argmax of a nonempty vector is a valid index into it. -/
theorem argmaxIdx_lt (l : List ℚ) (h : l ≠ []) : argmaxIdx l < l.length := by
  cases l with
  | nil => exact absurd rfl h
  | cons x xs =>
    rw [argmaxIdx, List.length_cons]
    exact argmaxAux_lt (xs.length + 1) xs 1 0 x (by omega) (by omega)

theorem argmaxAux_max (l : List ℚ) :
    ∀ (i bi : ℕ) (bv : ℚ) (g : ℕ → ℚ), g bi = bv →
      (∀ j, j < l.length → g (i + j) = l.getD j 0) →
      bv ≤ g (argmaxAux l i bi bv) ∧
      ∀ j, j < l.length → l.getD j 0 ≤ g (argmaxAux l i bi bv) := by
  induction l with
  | nil =>
    intro i bi bv g hg _
    simp [argmaxAux, hg]
  | cons x xs ih =>
    intro i bi bv g hg hvals
    have hx : g i = x := by
      have h0 := hvals 0 (by simp)
      simpa using h0
    have hrest : ∀ j, j < xs.length → g (i + 1 + j) = xs.getD j 0 := by
      intro j hj
      have hj1 := hvals (j + 1) (by simp; omega)
      simpa [Nat.add_assoc, Nat.add_comm 1 j] using hj1
    rw [argmaxAux]
    split
    · rename_i hlt
      obtain ⟨h1, h2⟩ := ih (i + 1) i x g hx hrest
      refine ⟨le_trans (le_of_lt hlt) h1, ?_⟩
      intro j hj
      cases j with
      | zero => simpa using h1
      | succ j =>
        simp only [List.getD_cons_succ]
        exact h2 j (by simp at hj; omega)
    · rename_i hge
      obtain ⟨h1, h2⟩ := ih (i + 1) bi bv g hg hrest
      refine ⟨h1, ?_⟩
      intro j hj
      cases j with
      | zero =>
        simp only [List.getD_cons_zero]
        exact le_trans (not_lt.mp hge) h1
      | succ j =>
        simp only [List.getD_cons_succ]
        exact h2 j (by simp at hj; omega)

/-- `argmaxIdx` picks an index holding a maximal value. -/
theorem argmaxIdx_max (l : List ℚ) :
    ∀ j, j < l.length → l.getD j 0 ≤ l.getD (argmaxIdx l) 0 := by
  cases l with
  | nil => intro j hj; simp at hj
  | cons x xs =>
    have h := argmaxAux_max xs 1 0 x (fun k => (x :: xs).getD k 0) (by simp)
      (fun j hj => by rw [Nat.add_comm]; simp [List.getD_cons_succ])
    intro j hj
    cases j with
    | zero => simpa [argmaxIdx] using h.1
    | succ j =>
      have hs := h.2 j (by simp at hj; omega)
      simpa [argmaxIdx] using hs

/-- `DQN.action` (lines 47–60) on a single state: `values = forward(x)`;
`u = np.random.random()`; if `u < eps`, `values` is replaced by
`t.rand_like(values)`; either way the argmax of `values` (with `dim=0` for
a 1-d input) is returned.  The RNG draws `u` and `randVals` are explicit
arguments. -/
def DQN.action (p : DQNParams) (x : List ℚ) (u epsv : ℚ) (randVals : List ℚ) : ℕ :=
  let values := DQN.forward p x
  if u < epsv then argmaxIdx randVals else argmaxIdx values

/-- `DQN.action` on an N×2 batch: `argmax` with `dim=1` returns one index
per row. -/
def DQN.actionBatch (p : DQNParams) (xs : List (List ℚ)) (u epsv : ℚ)
    (randVals : List (List ℚ)) : List ℕ :=
  let values := DQN.forwardBatch p xs
  if u < epsv then randVals.map argmaxIdx else values.map argmaxIdx

/-! ## Training target (script lines 133–136)

Per batch element: `target = r` (a data tensor, carrying no gradient);
`target[1-d] += gamma * t.max(dqn.forward(s_), 1)[0][1-d]` adds the
gradient-carrying network maximum in place, masked to the elements whose
`done` byte is 0; `target.detach_()` removes the result from the gradient
graph before the loss is formed (line 140).  Gradient-graph membership is
tracked by a boolean flag on values. -/

/-- A scalar together with whether it is attached to the autograd graph. -/
structure GVal where
  val : ℚ
  grad : Bool

/-- Addition of tracked values: the result is in the graph if either
operand is. -/
def gAdd (a b : GVal) : GVal := ⟨a.val + b.val, a.grad || b.grad⟩

/-- Scaling a tracked value by a constant. -/
def gScale (c : ℚ) (a : GVal) : GVal := ⟨c * a.val, a.grad⟩

/-- `detach_()`: drop out of the gradient graph. -/
def gDetach (a : GVal) : GVal := ⟨a.val, false⟩

/-- `t.max(·, 1)[0]` over the three action values of a row: the maximum
entry. -/
def listMax : List ℚ → ℚ
  | [] => 0
  | x :: xs => xs.foldl max x

/-- The regression target for one sampled transition (lines 134–136):
start from the raw reward, add `gamma * max_a Q(s', a)` in place exactly
when the `done` byte is 0 (mask `1 - d`), then detach. -/
def computeTarget (p : DQNParams) (r : ℚ) (d : Bool) (s' : List ℚ) : GVal :=
  let maxQ : GVal := ⟨listMax (DQN.forward p s'), true⟩
  let t0 : GVal := ⟨r, false⟩
  gDetach (if !d then gAdd t0 (gScale gamma maxQ) else t0)

/-! ## Theorems for the network, action selection and the target -/

/-- C10: every component of `DQN.forward`'s output is `sign` times a
non-negative number (the final ReLU output); with `sign = 1` as the script
constructs the network every Q-value estimate is ≥ 0, and with the default
`sign = -1` every Q-value estimate is ≤ 0. -/
theorem forward_sign (p : DQNParams) (x : List ℚ) (y : ℚ)
    (hy : y ∈ DQN.forward p x) :
    (∃ c : ℚ, 0 ≤ c ∧ y = p.sign * c) ∧
    (p.sign = scriptSign → 0 ≤ y) ∧
    (p.sign = defaultSign → y ≤ 0) := by
  simp only [DQN.forward, reluVec, List.mem_map] at hy
  obtain ⟨v, hv, rfl⟩ := hy
  obtain ⟨a, _, rfl⟩ := hv
  refine ⟨⟨relu a, relu_nonneg a, rfl⟩, ?_, ?_⟩
  · intro h
    have h1 : p.sign = 1 := h.trans rfl
    rw [h1, one_mul]
    exact relu_nonneg a
  · intro h
    have h1 : p.sign = -1 := h.trans rfl
    rw [h1]
    have h2 := relu_nonneg a
    linarith

/-- Concrete network parameters used to instantiate the theorems: layer
widths 2 → 1 → 1 → 3, identity batch norms, `sign = 1` as in the script. -/
def testParams : DQNParams :=
  ⟨[[1, 1]], [0], [1], [0], [[1]], [0], [1], [0],
   [[1], [2], [3]], [0, 0, 0], [1, 1, 1], [0, 0, 0], 1⟩

/-- Witness for C10: the output component `0` of the concrete network on
state `[0, 0]` is `sign` times a non-negative number. -/
theorem forward_sign_witness :
    ∃ c : ℚ, 0 ≤ c ∧ (0 : ℚ) = testParams.sign * c :=
  (forward_sign testParams [0, 0] 0
    (by simp [DQN.forward, testParams, linear, batchNorm, reluVec, relu, dot])).1

/-- C7: `action(state, eps)` returns the argmax of a freshly drawn random
value vector (of the same shape as `forward(state)`) when the uniform draw
`u` is below `eps`, and the argmax of `forward(state)` otherwise; for a
single 2-vector input the result is an action index in `{0,1,2}`, and for
an N-row batch it is one index per row. -/
theorem action_spec (p : DQNParams) (x : List ℚ) (u epsv : ℚ) (randVals : List ℚ)
    (hW : p.W3.length = 3) (hb : p.b3.length = 3)
    (hsc : p.sc3.length = 3) (hsh : p.sh3.length = 3)
    (hr : randVals.length = (DQN.forward p x).length) :
    DQN.action p x u epsv randVals =
      (if u < epsv then argmaxIdx randVals else argmaxIdx (DQN.forward p x)) ∧
    DQN.action p x u epsv randVals < 3 ∧
    (∀ (xs rvs : List (List ℚ)), rvs.length = xs.length →
      (DQN.actionBatch p xs u epsv rvs).length = xs.length) := by
  have hfl : (DQN.forward p x).length = 3 := forward_length p hW hb hsc hsh x
  refine ⟨rfl, ?_, ?_⟩
  · have he : DQN.action p x u epsv randVals =
        if u < epsv then argmaxIdx randVals else argmaxIdx (DQN.forward p x) := rfl
    rw [he]
    split
    · have hrl : randVals.length = 3 := by rw [hr, hfl]
      have hne : randVals ≠ [] := by
        intro hh
        rw [hh] at hrl
        simp at hrl
      have hlt := argmaxIdx_lt randVals hne
      omega
    · have hne : DQN.forward p x ≠ [] := by
        intro hh
        rw [hh] at hfl
        simp at hfl
      have hlt := argmaxIdx_lt _ hne
      omega
  · intro xs rvs hlen
    unfold DQN.actionBatch DQN.forwardBatch
    split <;> simp [hlen]

/-- Witness for C7: the concrete network on state `[0, 0]` with
`u = 1/2 < eps = 19/20` picks an action index below 3. -/
theorem action_spec_witness :
    DQN.action testParams [0, 0] (1/2) (19/20) [3/10, 9/10, 1/10] < 3 :=
  (action_spec testParams [0, 0] (1/2) (19/20) [3/10, 9/10, 1/10]
    rfl rfl rfl rfl rfl).2.1

/-- C1: the regression target for a sampled transition equals the raw
reward when `done` is true and `reward + gamma · max_a Q(s', a)` when
`done` is false — the bootstrap term is added only where `done` is false —
and the target is outside the gradient graph before the loss is formed. -/
theorem target_spec (p : DQNParams) (r : ℚ) (d : Bool) (s' : List ℚ) :
    (computeTarget p r d s').val =
      (if d then r else r + gamma * listMax (DQN.forward p s')) ∧
    (computeTarget p r d s').grad = false := by
  cases d <;> simp [computeTarget, gAdd, gScale, gDetach]

/-! ## Theorems for exploration rate and reward shaping -/

/-- C3: the exploration rate computed at global step `i` equals
`clip(1 - i/N_RANDOM, 0.05, 0.95)` with `N_RANDOM = 2000`; it always lies in
`[0.05, 0.95]`, equals `0.95` for the earliest steps (all `i ≤ 100`), and
equals `0.05` for every step with `i ≥ 2000`. -/
theorem eps_schedule (i : ℕ) :
    eps i = npClip (1 - (i : ℚ) / 2000) 0.05 0.95 ∧
    0.05 ≤ eps i ∧ eps i ≤ 0.95 ∧
    (i ≤ 100 → eps i = 0.95) ∧
    (2000 ≤ i → eps i = 0.05) := by
  refine ⟨rfl, ?_, ?_, ?_, ?_⟩
  · have h1 : (0.05 : ℚ) ≤ max (1 - (i : ℚ) / N_RANDOM) 0.05 := le_max_right _ _
    exact le_min h1 (by norm_num)
  · exact min_le_right _ _
  · intro h
    unfold eps npClip N_RANDOM
    have hi : (i : ℚ) ≤ 100 := by exact_mod_cast h
    have hle : (0.95 : ℚ) ≤ 1 - (i : ℚ) / 2000 := by linarith
    rw [max_eq_left (by linarith), min_eq_right hle]
  · intro h
    unfold eps npClip N_RANDOM
    have hi : (2000 : ℚ) ≤ (i : ℚ) := by exact_mod_cast h
    have hle : 1 - (i : ℚ) / 2000 ≤ 0.05 := by nlinarith
    rw [max_eq_right hle, min_eq_left (by norm_num)]

/-- Witness for C3: the schedule evaluated at steps 50 and 2500. -/
theorem eps_schedule_witness : eps 50 = 0.95 ∧ eps 2500 = 0.05 :=
  ⟨(eps_schedule 50).2.2.2.1 (by norm_num),
   (eps_schedule 2500).2.2.2.2 (by norm_num)⟩

/-- C4: the shaped reward is 0 on every non-terminal step; on a terminal
step with per-episode step count `n` and final position `p` it equals
`0.995^n * (2·[p ≥ 0.5] + (p+2.2)^2 / 2.7^2)`, the indicator contributing
`2` exactly when the goal position `0.5` is reached. -/
theorem shapedReward_spec (n : ℕ) (p : ℚ) :
    shapedReward false n p = 0 ∧
    (0.5 ≤ p →
      shapedReward true n p = (0.995 : ℚ) ^ n * (2 + (p + 2.2) ^ 2 / (2.7 : ℚ) ^ 2)) ∧
    (p < 0.5 →
      shapedReward true n p = (0.995 : ℚ) ^ n * ((p + 2.2) ^ 2 / (2.7 : ℚ) ^ 2)) := by
  refine ⟨rfl, ?_, ?_⟩
  · intro h
    simp [shapedReward, if_pos h]
  · intro h
    rw [shapedReward]
    rw [if_neg (not_le.mpr h)]
    norm_num

/-- Witness for C4: the spec's two test vectors, `p = 0.6, n = 50` (goal
reached) and `p = -0.5, n = 50` (goal not reached). -/
theorem shapedReward_witness :
    shapedReward true 50 0.6 = (0.995 : ℚ) ^ 50 * (2 + (0.6 + 2.2) ^ 2 / (2.7 : ℚ) ^ 2) ∧
    shapedReward true 50 (-0.5) = (0.995 : ℚ) ^ 50 * ((-0.5 + 2.2) ^ 2 / (2.7 : ℚ) ^ 2) :=
  ⟨(shapedReward_spec 50 0.6).2.1 (by norm_num),
   (shapedReward_spec 50 (-0.5)).2.2 (by norm_num)⟩

/-! ## Episode loop (script lines 91–112, 146–149)

The inner `while not done` loop: the per-episode counter `i_ep` is
incremented (line 97), the environment is stepped (line 105, its reported
done flag at step `i` abstracted as `envDone i` and the post-step position
as `pos i`), the episode is force-terminated once `i_ep > 200`
(lines 108–109), the shaped reward of the step is added to `cum_reward`
(lines 111–112), and on `done` the loop breaks with the episode's
cumulative reward and step count (lines 146–149). -/

/-- The effective done flag of step `i`: the environment's flag, overridden
to true when `i_ep > 200` (lines 108–109). -/
def forcedDone (envDone : ℕ → Bool) (i : ℕ) : Bool :=
  if 200 < i then true else envDone i

/-- The `while not done` loop from counter value `i_ep` and accumulated
reward `cum` onward; returns the final `(cum_reward, i_ep)` pair recorded
at lines 147–148. -/
def episodeGo (envDone : ℕ → Bool) (pos : ℕ → ℚ) (i_ep : ℕ) (cum : ℚ) : ℚ × ℕ :=
  if forcedDone envDone (i_ep + 1) then
    (cum + shapedReward (forcedDone envDone (i_ep + 1)) (i_ep + 1) (pos (i_ep + 1)),
     i_ep + 1)
  else
    episodeGo envDone pos (i_ep + 1)
      (cum + shapedReward (forcedDone envDone (i_ep + 1)) (i_ep + 1) (pos (i_ep + 1)))
termination_by 201 - i_ep
decreasing_by
  rename_i h
  have h2 : ¬ 200 < i_ep + 1 := by
    intro hc
    rw [forcedDone, if_pos hc] at h
    exact h rfl
  omega

/-- One episode from the reset state (lines 90–92: `cum_reward = 0`,
`i_ep = 0`). -/
def runEpisode (envDone : ℕ → Bool) (pos : ℕ → ℚ) : ℚ × ℕ :=
  episodeGo envDone pos 0 0

/-- The step count recorded for an episode. -/
def episodeSteps (envDone : ℕ → Bool) (pos : ℕ → ℚ) : ℕ :=
  (runEpisode envDone pos).2

theorem episodeGo_snd_le (e : ℕ → Bool) (p : ℕ → ℚ) :
    ∀ (k i_ep : ℕ) (cum : ℚ), 201 - i_ep ≤ k → i_ep ≤ 200 →
      (episodeGo e p i_ep cum).2 ≤ 201 := by
  intro k
  induction k with
  | zero =>
    intro i_ep cum hk hle
    omega
  | succ k ih =>
    intro i_ep cum hk hle
    rw [episodeGo]
    split
    · simp
      omega
    · rename_i h
      have h2 : ¬ 200 < i_ep + 1 := by
        intro hc
        rw [forcedDone, if_pos hc] at h
        exact h rfl
      exact ih (i_ep + 1) _ (by omega) (by omega)

theorem episodeGo_force (e : ℕ → Bool) (p : ℕ → ℚ) (he : ∀ n, e n = false) :
    ∀ (k i_ep : ℕ) (cum : ℚ), 201 - i_ep ≤ k → i_ep ≤ 200 →
      (episodeGo e p i_ep cum).2 = 201 := by
  intro k
  induction k with
  | zero =>
    intro i_ep cum hk hle
    omega
  | succ k ih =>
    intro i_ep cum hk hle
    rw [episodeGo]
    by_cases hc : 200 < i_ep + 1
    · rw [forcedDone, if_pos hc]
      simp
      omega
    · rw [forcedDone, if_neg hc, he (i_ep + 1)]
      simp only [Bool.false_eq_true, if_false]
      exact ih (i_ep + 1) _ (by omega) (by omega)

theorem episodeGo_fst (e : ℕ → Bool) (p : ℕ → ℚ) :
    ∀ (k i_ep : ℕ) (cum : ℚ), 201 - i_ep ≤ k →
      (episodeGo e p i_ep cum).1 =
        cum + shapedReward true (episodeGo e p i_ep cum).2
          (p (episodeGo e p i_ep cum).2) := by
  intro k
  induction k with
  | zero =>
    intro i_ep cum hk
    have hc : 200 < i_ep + 1 := by omega
    have hfd : forcedDone e (i_ep + 1) = true := by rw [forcedDone, if_pos hc]
    rw [episodeGo, hfd]
    simp
  | succ k ih =>
    intro i_ep cum hk
    rw [episodeGo]
    split
    · rename_i h
      rw [h]
    · rename_i h
      have hfd : forcedDone e (i_ep + 1) = false := by
        revert h
        cases forcedDone e (i_ep + 1) <;> simp
      rw [hfd]
      have hz : shapedReward false (i_ep + 1) (p (i_ep + 1)) = 0 := by
        simp [shapedReward]
      rw [hz, add_zero]
      exact ih (i_ep + 1) cum (by omega)

/-- C5: the episode loop force-terminates once the per-episode counter
exceeds 200: the recorded step count never exceeds 201, and when the
environment never reports done the episode ends at exactly step 201. -/
theorem episode_cap (e : ℕ → Bool) (p : ℕ → ℚ) :
    episodeSteps e p ≤ 201 ∧
    ((∀ n, e n = false) → episodeSteps e p = 201) := by
  constructor
  · exact episodeGo_snd_le e p 201 0 0 (by omega) (by omega)
  · intro he
    exact episodeGo_force e p he 201 0 0 (by omega) (by omega)

/-- Witness for C5: with an environment that never reports done the
episode is forcibly terminated at step 201. -/
theorem episode_cap_witness :
    episodeSteps (fun _ => false) (fun _ => 0) = 201 :=
  (episode_cap (fun _ => false) (fun _ => 0)).2 (fun _ => rfl)

/-- The episode's recorded cumulative reward equals the shaped reward of
its final step. -/
theorem runEpisode_fst (e : ℕ → Bool) (p : ℕ → ℚ) :
    (runEpisode e p).1 =
      shapedReward true (episodeSteps e p) (p (episodeSteps e p)) := by
  have h := episodeGo_fst e p 201 0 0 (by omega)
  rw [runEpisode, episodeSteps, runEpisode]
  rw [h, zero_add]

/-- The outer `for i_episode in range(N_EPISODES)` loop (lines 86, 146–148):
each completed episode appends its cumulative reward to `cum_rewards` and
its step count to `i_eps`.  `e k`/`p k` are episode `k`'s environment done
flags and positions. -/
def runTraining (e : ℕ → ℕ → Bool) (p : ℕ → ℕ → ℚ) : ℕ → List ℚ × List ℕ
  | 0 => ([], [])
  | n + 1 =>
    let prev := runTraining e p n
    let ep := runEpisode (e n) (p n)
    (prev.1 ++ [ep.1], prev.2 ++ [ep.2])

/-- C9: after `n` completed episodes both episode-statistics sequences hold
exactly one entry per episode, and every recorded cumulative reward equals
the shaped reward of that episode's final step (every non-terminal step
contributing 0). -/
theorem episode_stats (e : ℕ → ℕ → Bool) (p : ℕ → ℕ → ℚ) (nEp : ℕ) :
    (runTraining e p nEp).1.length = nEp ∧
    (runTraining e p nEp).2.length = nEp ∧
    (runTraining e p nEp).1 = (List.range nEp).map
      (fun k => shapedReward true (episodeSteps (e k) (p k))
        (p k (episodeSteps (e k) (p k)))) ∧
    (runTraining e p nEp).2 =
      (List.range nEp).map (fun k => episodeSteps (e k) (p k)) := by
  induction nEp with
  | zero => simp [runTraining]
  | succ n ih =>
    obtain ⟨h1, h2, h3, h4⟩ := ih
    refine ⟨?_, ?_, ?_, ?_⟩
    · simp [runTraining, h1]
    · simp [runTraining, h2]
    · simp only [runTraining, List.range_succ, List.map_append, List.map_cons,
        List.map_nil]
      rw [h3, runEpisode_fst]
    · simp only [runTraining, List.range_succ, List.map_append, List.map_cons,
        List.map_nil]
      rw [h4]
      rfl

/-! ## Sampling guard (script lines 123–126) -/

/-- The training-loop guard `replay_memory.n > N_MIN_TRANSITIONS`
(line 123), as a function of the buffer occupancy `n`. -/
def trainGuard (n : ℕ) : Bool := decide (N_MIN_TRANSITIONS < n)

/-- Modelled from the spec: `utils.Buffer.sample` is not in the available
sources.  §4.1: "`sample(batch_size)`: returns `batch_size` transitions
drawn uniformly at random without replacement ... Precondition: current
size ≥ batch_size, else behavior is undefined/must fail with an
InsufficientDataError."  The RNG's choice of indices is abstracted as the
argument `idxs`; only the occupancy check matters here. -/
def Buffer.sample {α : Type*} (buf : List α) (k : ℕ) (idxs : List ℕ) :
    Except String (List α) :=
  if buf.length < k then Except.error "InsufficientDataError"
  else Except.ok ((idxs.take k).filterMap (fun i => buf.get? i))

/-- C6: `sample(batch_size)` is reached only when the occupancy exceeds
`N_MIN_TRANSITIONS = batch_size*3 ≥ batch_size`, so the precondition
`size ≥ batch_size` holds at the call site and the insufficient-data
failure is unreachable in the loop. -/
theorem sample_guarded (buf : List ℕ) (idxs : List ℕ)
    (h : trainGuard buf.length = true) :
    batch_size ≤ N_MIN_TRANSITIONS ∧
    batch_size ≤ buf.length ∧
    ∃ out, Buffer.sample buf batch_size idxs = Except.ok out := by
  have hn : N_MIN_TRANSITIONS < buf.length := by
    simpa [trainGuard] using h
  have hc : N_MIN_TRANSITIONS = 384 := rfl
  have hb : batch_size = 128 := rfl
  refine ⟨by omega, by omega, ?_⟩
  rw [Buffer.sample, if_neg (by omega)]
  exact ⟨_, rfl⟩

/-- Witness for C6: a buffer holding 385 transitions passes the guard and
sampling succeeds. -/
theorem sample_guarded_witness :
    batch_size ≤ N_MIN_TRANSITIONS ∧
    batch_size ≤ (List.replicate 385 0).length ∧
    ∃ out, Buffer.sample (List.replicate 385 0) batch_size [] = Except.ok out :=
  sample_guarded (List.replicate 385 0) []
    (by rw [List.length_replicate]; rfl)

/-! ## Environment session (script lines 86–151)

`env.close()` (line 151) follows the episode loop in straight line.  There
is no `try`/`finally` around the loop, so `close` runs exactly when the
loop returns normally; an exception propagating out of the loop skips it.
The run is modelled by its trace of environment events. -/

inductive Event where
  | envStep : Event
  | envClose : Event
deriving DecidableEq

/-- The environment events of one episode: one `env.step` per loop
iteration (line 105); the loop body never closes the environment. -/
def episodeEvents (n : ℕ) : List Event := List.replicate n Event.envStep

/-- The episode loop's event trace, given each episode's iteration
count. -/
def loopEvents (lens : List ℕ) : List Event := (lens.map episodeEvents).flatten

/-- The whole run's event trace: the loop's events, followed by
`env.close()` only when the loop terminated normally (`Except.ok`); on an
exception (`Except.error`) execution never reaches line 151. -/
def runMain (lens : List ℕ) (loopResult : Except String Unit) : List Event :=
  match loopResult with
  | Except.ok _ => loopEvents lens ++ [Event.envClose]
  | Except.error _ => loopEvents lens

theorem loopEvents_no_close (lens : List ℕ) :
    (loopEvents lens).count Event.envClose = 0 := by
  rw [List.count_eq_zero]
  intro hmem
  rw [loopEvents, List.mem_flatten] at hmem
  obtain ⟨l, hl, hm⟩ := hmem
  rw [List.mem_map] at hl
  obtain ⟨n, _, rfl⟩ := hl
  rw [episodeEvents] at hm
  exact Event.noConfusion (List.eq_of_mem_replicate hm)

/-- Counterexample to C8: when the episode loop terminates abnormally (an
exception propagates out of it), `env.close()` is never called — the claim
that it is called regardless of how the loop terminates is false. -/
theorem env_close_counterexample :
    (runMain [201] (Except.error "environment failure")).count Event.envClose = 0 := by
  rw [runMain]
  exact loopEvents_no_close [201]

/-- C8 (amended): `env.close()` is called exactly once when the episode
loop completes normally, and is not called at all when the loop exits via
an exception (line 151 is not protected by any `try`/`finally`). -/
theorem env_close_amended (lens : List ℕ) :
    (runMain lens (Except.ok ())).count Event.envClose = 1 ∧
    ∀ msg : String,
      (runMain lens (Except.error msg)).count Event.envClose = 0 := by
  constructor
  · rw [runMain, List.count_append, loopEvents_no_close]
    rfl
  · intro msg
    rw [runMain]
    exact loopEvents_no_close lens

end DQNSpec
